import Mathlib

/-!
# bit_vector: a packed boolean array over 64-bit words

Shallow embedding of `include/bit_vector/bit_vector.hpp`.

* A `uint64_t` / `size_t` value is a `Nat`; every operation that can leave the
  64-bit range is written with an explicit `% 2^64`.
* `std::vector<uint64_t>` is a `List Nat`.
* An operation whose C++ behaviour is undefined (indexing the word buffer out
  of range, `back()` of an empty buffer) or which trips an `assert` returns
  `none`.
* References and iterators hold a position; the container they point into is
  passed explicitly as state.
-/

namespace detail

/-- The template `ceil_div<uint64_t, int>`: `IntType1(dividend + d - 1) / d`,
where the sum and the `- 1` are taken in unsigned 64-bit arithmetic (adding
`2^64 - 1` is subtracting one modulo `2^64`). -/
def ceil_div (dividend divisor : Nat) : Nat :=
  let d := divisor % 2^64
  ((dividend + d + (2^64 - 1)) % 2^64) / d

/-- The function `words_for(n) = ceil_div(n, 64)`. -/
def words_for (n : Nat) : Nat := ceil_div n 64

end detail

namespace bv

/-- The class `bit_vector`: the word buffer `m_bits` and the bit count `m_size`. -/
structure bit_vector where
  m_bits : List Nat
  m_size : Nat
deriving DecidableEq

namespace bit_vector

/-- The member `test(pos)`: both assertions, then `(m_bits[block] >> shift) & 1`
converted to `bool`. -/
def test (v : bit_vector) (pos : Nat) : Option Bool :=
  if pos < v.m_size then
    let block := pos / 64
    if h : block < v.m_bits.length then
      let shift := pos % 64
      some (((v.m_bits[block] >>> shift) &&& 1) != 0)
    else none
  else none

/-- The member `set(pos, b)`: mask-clear then OR-in on word `pos / 64`.
The complement `~x` of a 64-bit word is `2^64 - 1 - x`. -/
def set (v : bit_vector) (pos : Nat) (b : Bool) : Option bit_vector :=
  let word := pos / 64
  let pos_in_word := pos % 64
  if h : word < v.m_bits.length then
    let w1 := v.m_bits[word] &&& (2^64 - 1 - (1 <<< pos_in_word) % 2^64)
    let w2 := w1 ||| ((b.toNat <<< pos_in_word) % 2^64)
    some { m_bits := v.m_bits.set word w2, m_size := v.m_size }
  else none

/-- The default constructor `bit_vector()`. -/
def bit_vector_default : bit_vector := { m_bits := [], m_size := 0 }

/-- The filling constructor `bit_vector(count, value)`. The fill word
`uint64_t(-value)` is `0 - value` modulo `2^64`. -/
def bit_vector_fill (count : Nat) (value : Bool) : Option bit_vector :=
  let bits := List.replicate (detail.words_for count) ((2^64 - value.toNat) % 2^64)
  if count != 0 then
    match bits.getLast? with
    | none => none
    | some cur_word =>
      let p := count % 64
      if value && p != 0 then
        some { m_bits := bits.set (bits.length - 1) (cur_word >>> (64 - p)), m_size := count }
      else
        some { m_bits := bits, m_size := count }
  else
    some { m_bits := bits, m_size := count }

/-- The member `clear()`. -/
def clear (_v : bit_vector) : bit_vector := { m_bits := [], m_size := 0 }

/-- The member `push_back(b)`. -/
def push_back (v : bit_vector) (b : Bool) : Option bit_vector :=
  let pos_in_word := v.m_size % 64
  let bits := if pos_in_word == 0 then v.m_bits ++ [0] else v.m_bits
  match bits.getLast? with
  | none => none
  | some cur_word =>
    some { m_bits := bits.set (bits.length - 1) (cur_word ||| ((b.toNat <<< pos_in_word) % 2^64)),
           m_size := (v.m_size + 1) % 2^64 }

/-- The const member `operator[](pos)`. -/
def operator_index (v : bit_vector) (pos : Nat) : Option Bool := v.test pos

/-- The bulk member `set()`: `std::fill` of the buffer with `uint64_t(-1)`. -/
def set_all (v : bit_vector) : bit_vector :=
  { m_bits := v.m_bits.map (fun _ => 2^64 - 1), m_size := v.m_size }

/-- The member `size()`. -/
def size (v : bit_vector) : Nat := v.m_size

/-- The member `empty()`. -/
def empty (v : bit_vector) : Bool := v.m_size == 0

/-- The member `operator==`. -/
def operator_eq (v other : bit_vector) : Bool :=
  (v.m_size == other.m_size) && (v.m_bits == other.m_bits)

/-- The member `operator!=`. -/
def operator_ne (v other : bit_vector) : Bool := !(v.operator_eq other)

/-- The member `swap(other)`: the new states of `*this` and of `other`. -/
def swap (v other : bit_vector) : bit_vector × bit_vector :=
  ({ m_bits := other.m_bits, m_size := other.m_size },
   { m_bits := v.m_bits, m_size := v.m_size })

end bit_vector

/-- The nested class `reference`: the position `m_pos`. -/
structure reference where
  m_pos : Nat
deriving DecidableEq

namespace reference

/-- The conversion `operator bool()`. -/
def to_bool (bv : bit_vector) (r : reference) : Option Bool := bv.test r.m_pos

/-- The assignment `operator=(bool b)`: the new state of the container. -/
def assign (bv : bit_vector) (r : reference) (b : Bool) : Option bit_vector :=
  bv.set r.m_pos b

/-- The assignment `operator=(const reference &other)`: `other` is read in the
container `obv` it points into, then written through. -/
def assign_ref (bv : bit_vector) (r : reference) (obv : bit_vector) (other : reference) :
    Option bit_vector :=
  match other.to_bool obv with
  | none => none
  | some b => bv.set r.m_pos b

end reference

/-- The non-const member `operator[](pos)`, which builds a `reference`. -/
def bit_vector.operator_index_ref (_v : bit_vector) (pos : Nat) : reference := { m_pos := pos }

/-- The nested class `const_iterator`: the position `m_pos`. -/
structure const_iterator where
  m_pos : Nat
deriving DecidableEq

namespace const_iterator

/-- The pre-increment `operator++()`: `m_pos += 1` on a `size_t`. -/
def incr (it : const_iterator) : const_iterator := { m_pos := (it.m_pos + 1) % 2^64 }

/-- The dereference `operator*()`. -/
def deref (bv : bit_vector) (it : const_iterator) : Option Bool := bv.test it.m_pos

/-- The comparison `operator==`: positions and containers. -/
def operator_eq (bv : bit_vector) (it : const_iterator) (obv : bit_vector)
    (other : const_iterator) : Bool :=
  (it.m_pos == other.m_pos) && bv.operator_eq obv

/-- The comparison `operator!=`. -/
def operator_ne (bv : bit_vector) (it : const_iterator) (obv : bit_vector)
    (other : const_iterator) : Bool :=
  !(operator_eq bv it obv other)

end const_iterator

/-- The const member `begin()`. -/
def bit_vector.cbegin (_v : bit_vector) : const_iterator := { m_pos := 0 }

/-- The const member `end()`. -/
def bit_vector.cend (v : bit_vector) : const_iterator := { m_pos := v.m_size }

/-- The nested class `iterator`: the position `m_pos`. -/
structure iterator where
  m_pos : Nat
deriving DecidableEq

namespace iterator

/-- The pre-increment `operator++()`: `m_pos += 1` on a `size_t`. -/
def incr (it : iterator) : iterator := { m_pos := (it.m_pos + 1) % 2^64 }

/-- The dereference `operator*()`, which builds a `reference`. -/
def deref (it : iterator) : reference := { m_pos := it.m_pos }

/-- The comparison `operator==`: positions and containers. -/
def operator_eq (bv : bit_vector) (it : iterator) (obv : bit_vector) (other : iterator) : Bool :=
  (it.m_pos == other.m_pos) && bv.operator_eq obv

/-- The comparison `operator!=`. -/
def operator_ne (bv : bit_vector) (it : iterator) (obv : bit_vector) (other : iterator) : Bool :=
  !(operator_eq bv it obv other)

end iterator

/-- The non-const member `begin()`. -/
def bit_vector.begin (_v : bit_vector) : iterator := { m_pos := 0 }

/-- The non-const member `end()`. -/
def bit_vector.end_ (v : bit_vector) : iterator := { m_pos := v.m_size }

/-- The loop `for (i = 0; i < v.size(); ++i) vector.push_back(v[i]);` of the
test `fuzzy`: the bits of `bs` are pushed in order. -/
def push_all : bit_vector → List Bool → Option bit_vector
  | v, [] => some v
  | v, b :: bs =>
    match v.push_back b with
    | none => none
    | some v1 => push_all v1 bs

/-- The loop `for (it = begin(); it != end(); ++it) use(*it);` of the test
`iterator` on a const container, run from `it` for at most `fuel` rounds; the
values read are collected in order. Running out of fuel or a failed read gives
`none`. -/
def const_iterate_from (v : bit_vector) : Nat → const_iterator → Option (List Bool)
  | fuel, it =>
    if const_iterator.operator_ne v it v v.cend then
      match fuel with
      | 0 => none
      | fuel + 1 =>
        match it.deref v with
        | none => none
        | some b =>
          match const_iterate_from v fuel it.incr with
          | none => none
          | some rest => some (b :: rest)
    else some []

/-- Read-only iteration over the whole container, from `begin()`. -/
def const_iterate (v : bit_vector) (fuel : Nat) : Option (List Bool) :=
  const_iterate_from v fuel v.cbegin

/-- The loop `for (it = begin(); it != end(); ++it) *it = x;` of the test
`iterator`, run from `it` for at most `fuel` rounds; `end()` is taken on the
current state at every comparison. -/
def iterate_assign_from (x : Bool) : Nat → bit_vector → iterator → Option bit_vector
  | fuel, v, it =>
    if iterator.operator_ne v it v v.end_ then
      match fuel with
      | 0 => none
      | fuel + 1 =>
        match reference.assign v it.deref x with
        | none => none
        | some v1 => iterate_assign_from x fuel v1 it.incr
    else some v

/-- Write-through iteration over the whole container, from `begin()`. -/
def iterate_assign (x : Bool) (fuel : Nat) (v : bit_vector) : Option bit_vector :=
  iterate_assign_from x fuel v v.begin

/-- Sizing invariant I1: the word count is the ceiling of `m_size / 64`. -/
def I1 (v : bit_vector) : Prop := v.m_bits.length = (v.m_size + 63) / 64

/-- The bit stored at in-word index `i` of storage word `j` (`false` past the
buffer). -/
def storage_bit (v : bit_vector) (j i : Nat) : Bool := (v.m_bits.getD j 0).testBit i

/-- The container `v` holds exactly the bit sequence `bs`: its length is
`bs.length`, I1 holds, and storage bit `i` of word `j` is `bs[64 * j + i]` for
`i < 64`, and zero past the end of `bs` and at in-word indices from 64 on. -/
def holds (v : bit_vector) (bs : List Bool) : Prop :=
  v.m_size = bs.length ∧ I1 v ∧
    ∀ j i, storage_bit v j i = (decide (i < 64) && bs.getD (64 * j + i) false)

/-- The copy constructor `bit_vector(const bit_vector &other)`. -/
def bit_vector.bit_vector_copy (other : bit_vector) : bit_vector :=
  { m_bits := other.m_bits, m_size := other.m_size }

/-- The copy assignment `operator=(bit_vector const &other)`: the new state of
`*this`. -/
def bit_vector.assign_copy (_v other : bit_vector) : bit_vector :=
  { m_bits := other.m_bits, m_size := other.m_size }

/-- The move constructor `bit_vector(bit_vector &&other)`: the new container
and the state left in `other`. `m_bits = std::move(other.m_bits)` leaves the
source buffer empty; `other.m_size` is read and not written. -/
def bit_vector.bit_vector_move (other : bit_vector) : bit_vector × bit_vector :=
  ({ m_bits := other.m_bits, m_size := other.m_size },
   { m_bits := [], m_size := other.m_size })

/-- The move assignment `operator=(bit_vector &&other)`: the new states of
`*this` and of `other`. -/
def bit_vector.assign_move (_v other : bit_vector) : bit_vector × bit_vector :=
  ({ m_bits := other.m_bits, m_size := other.m_size },
   { m_bits := [], m_size := other.m_size })

/-- The member `reserve(new_cap)`: `m_bits.reserve` changes the capacity only,
neither the words nor the length. -/
def bit_vector.reserve (v : bit_vector) (_new_cap : Nat) : bit_vector :=
  { m_bits := v.m_bits, m_size := v.m_size }

/-- The member `resize(count)`: `m_bits.resize(count)` truncates the buffer to
`count` words or pads it with zero words; `m_size` is not written. -/
def bit_vector.resize (v : bit_vector) (count : Nat) : bit_vector :=
  { m_bits := v.m_bits.take count ++ List.replicate (count - v.m_bits.length) 0,
    m_size := v.m_size }

/-- Clean-tail invariant: I1 holds and, when `m_size % 64 != 0`, every bit of
the last storage word at an in-word index from `m_size % 64` on is zero. -/
def clean_tail (v : bit_vector) : Prop :=
  I1 v ∧ (v.m_size % 64 ≠ 0 →
    ∀ i, v.m_size % 64 ≤ i → i < 64 → storage_bit v (v.m_bits.length - 1) i = false)

/-- The containers built from the constructors by `push_back`, in-range indexed
writes, `clear`, `swap` and copying, with lengths that stay `size_t` values:
neither the bulk `set()` nor `resize` is used. -/
inductive built : bit_vector → Prop
  | default : built bit_vector.bit_vector_default
  | fill (count : Nat) (value : Bool) (v : bit_vector) :
      count < 2^64 → bit_vector.bit_vector_fill count value = some v → built v
  | push_back (v : bit_vector) (b : Bool) (v1 : bit_vector) :
      built v → v.m_size + 1 < 2^64 → v.push_back b = some v1 → built v1
  | set (v : bit_vector) (pos : Nat) (b : Bool) (v1 : bit_vector) :
      built v → pos < v.m_size → v.set pos b = some v1 → built v1
  | clear (v : bit_vector) : built v → built v.clear
  | swap_this (v other : bit_vector) : built v → built other → built (v.swap other).1
  | swap_other (v other : bit_vector) : built v → built other → built (v.swap other).2
  | copy (other : bit_vector) : built other → built (bit_vector.bit_vector_copy other)
  | assign_copy (v other : bit_vector) : built v → built other → built (v.assign_copy other)

end bv

namespace bv

/-! ## Word-level facts -/

theorem and_one_ne_zero_eq_testBit (w s : Nat) : (((w >>> s) &&& 1) != 0) = w.testBit s := by
  unfold Nat.testBit
  rw [Nat.and_comm]

theorem all_ones_testBit (i : Nat) : (2^64 - 1 : Nat).testBit i = decide (i < 64) :=
  Nat.testBit_two_pow_sub_one 64 i

theorem one_shiftLeft_mod (s : Nat) (hs : s < 64) : (1 <<< s) % 2^64 = 2^s := by
  rw [Nat.one_shiftLeft]
  exact Nat.mod_eq_of_lt (Nat.pow_lt_pow_right (by decide) hs)

theorem clear_mask_testBit (s : Nat) (hs : s < 64) (i : Nat) :
    (2^64 - 1 - (1 <<< s) % 2^64).testBit i = (decide (i < 64) && !decide (s = i)) := by
  rw [one_shiftLeft_mod s hs, Nat.sub_sub, Nat.add_comm 1 (2^s),
    Nat.testBit_two_pow_sub_succ (Nat.pow_lt_pow_right (by decide) hs), Nat.testBit_two_pow]

theorem bool_shiftLeft_mod_testBit (b : Bool) (s : Nat) (hs : s < 64) (i : Nat) :
    ((b.toNat <<< s) % 2^64).testBit i = (decide (i = s) && b) := by
  rw [Nat.testBit_mod_two_pow, Nat.testBit_shiftLeft, Nat.testBit_bool_to_nat]
  by_cases h : i = s
  · subst h; simp [hs]
  · by_cases h2 : i ≥ s
    · have : i - s ≠ 0 := by omega
      simp [h, this]
    · simp [h, h2]

/-- The word written by `set`: bit `s` becomes `b`, the other bits below 64
are kept, nothing is set at or above 64. -/
theorem set_word_testBit (w s : Nat) (b : Bool) (hs : s < 64) (i : Nat) :
    ((w &&& (2^64 - 1 - (1 <<< s) % 2^64)) ||| ((b.toNat <<< s) % 2^64)).testBit i
      = if i = s then b else (decide (i < 64) && w.testBit i) := by
  rw [Nat.testBit_or, Nat.testBit_and, clear_mask_testBit s hs, bool_shiftLeft_mod_testBit b s hs]
  by_cases h : i = s
  · subst h; simp
  · have h2 : ¬ s = i := fun e => h e.symm
    simp [h, h2, Bool.and_comm]

/-- The word written by `push_back`: bit `s` is OR-ed with `b`, the other bits
are kept. -/
theorem or_word_testBit (w s : Nat) (b : Bool) (hs : s < 64) (i : Nat) :
    (w ||| ((b.toNat <<< s) % 2^64)).testBit i
      = if i = s then (w.testBit s || b) else w.testBit i := by
  rw [Nat.testBit_or, bool_shiftLeft_mod_testBit b s hs]
  by_cases h : i = s
  · subst h; simp
  · simp [h]

end bv

namespace bv

/-! ## Reading and writing one position -/

theorem I1_block_lt (v : bit_vector) (hI : I1 v) (pos : Nat) (h : pos < v.m_size) :
    pos / 64 < v.m_bits.length := by
  unfold I1 at hI
  omega

theorem storage_bit_of_getElem (v : bit_vector) (j i : Nat) (h : j < v.m_bits.length) :
    storage_bit v j i = (v.m_bits[j]).testBit i := by
  unfold storage_bit
  rw [List.getD_eq_getElem?_getD, List.getElem?_eq_getElem h]
  rfl

theorem test_eq_storage_bit (v : bit_vector) (pos : Nat) (h1 : pos < v.m_size)
    (h2 : pos / 64 < v.m_bits.length) :
    v.test pos = some (storage_bit v (pos / 64) (pos % 64)) := by
  unfold bit_vector.test
  rw [if_pos h1, dif_pos h2, storage_bit_of_getElem v _ _ h2]
  exact congrArg some (and_one_ne_zero_eq_testBit _ _)

theorem test_eq_none_of_size_le (v : bit_vector) (pos : Nat) (h : v.m_size ≤ pos) :
    v.test pos = none := by
  unfold bit_vector.test
  rw [if_neg (by omega)]

theorem set_eq_some (v : bit_vector) (pos : Nat) (b : Bool) (h : pos / 64 < v.m_bits.length) :
    ∃ v1, v.set pos b = some v1 := by
  unfold bit_vector.set
  rw [dif_pos h]
  exact ⟨_, rfl⟩

/-- What `set` does to the state: the length and the word count are kept, words
other than `pos / 64` are kept, and in word `pos / 64` bit `pos % 64` becomes
`b` while the other bits below 64 are kept. -/
theorem set_spec (v : bit_vector) (pos : Nat) (b : Bool) (v1 : bit_vector)
    (h : v.set pos b = some v1) :
    v1.m_size = v.m_size ∧ v1.m_bits.length = v.m_bits.length ∧
    (∀ j, j ≠ pos / 64 → v1.m_bits[j]? = v.m_bits[j]?) ∧
    (∀ i, storage_bit v1 (pos / 64) i
        = if i = pos % 64 then b else (decide (i < 64) && storage_bit v (pos / 64) i)) := by
  unfold bit_vector.set at h
  by_cases hw : pos / 64 < v.m_bits.length
  · rw [dif_pos hw] at h
    injection h with h
    subst h
    refine ⟨rfl, by simp, ?_, ?_⟩
    · intro j hj
      show (v.m_bits.set _ _)[j]? = _
      rw [List.getElem?_set_ne (fun e => hj e.symm)]
    · intro i
      have hlen : pos / 64 < (v.m_bits.set (pos / 64)
          ((v.m_bits[pos / 64] &&& (2^64 - 1 - (1 <<< (pos % 64)) % 2^64))
            ||| ((b.toNat <<< (pos % 64)) % 2^64))).length := by
        rw [List.length_set]; exact hw
      rw [storage_bit_of_getElem _ _ _ hlen, storage_bit_of_getElem v _ _ hw]
      show ((v.m_bits.set _ _)[pos / 64]).testBit i = _
      rw [List.getElem_set_self]
      exact set_word_testBit _ _ b (Nat.mod_lt _ (by decide)) i
  · rw [dif_neg hw] at h
    exact absurd h (by simp)

theorem storage_bit_eq_of_getElem?_eq (v v1 : bit_vector) (j : Nat)
    (h : v1.m_bits[j]? = v.m_bits[j]?) (i : Nat) : storage_bit v1 j i = storage_bit v j i := by
  unfold storage_bit
  rw [List.getD_eq_getElem?_getD, List.getD_eq_getElem?_getD, h]

/-- After `set`, every storage bit below 64 other than the addressed one is
unchanged and the addressed one is `b`. -/
theorem set_storage_bit (v : bit_vector) (pos : Nat) (b : Bool) (v1 : bit_vector)
    (h : v.set pos b = some v1) (j i : Nat) (hi : i < 64) :
    storage_bit v1 j i = if j = pos / 64 ∧ i = pos % 64 then b else storage_bit v j i := by
  obtain ⟨_, _, hother, hword⟩ := set_spec v pos b v1 h
  by_cases hj : j = pos / 64
  · subst hj
    rw [hword i]
    by_cases hi2 : i = pos % 64
    · simp [hi2]
    · simp [hi2, hi]
  · rw [storage_bit_eq_of_getElem?_eq v v1 j (hother j hj) i]
    simp [hj]

end bv

namespace bv

/-! ## The filling constructor -/

theorem words_for_eq (n : Nat) (h : n ≤ 2^64 - 64) : detail.words_for n = (n + 63) / 64 := by
  unfold detail.words_for detail.ceil_div
  norm_num at h ⊢
  omega

theorem storage_bit_mk (bits : List Nat) (n j i : Nat) :
    storage_bit { m_bits := bits, m_size := n } j i = (bits[j]?.getD 0).testBit i := by
  unfold storage_bit
  rw [List.getD_eq_getElem?_getD]

theorem replicate_ones_testBit (W j i : Nat) :
    (((List.replicate W (2^64 - 1 : Nat))[j]?).getD 0).testBit i
      = (decide (j < W) && decide (i < 64)) := by
  rw [List.getElem?_replicate]
  by_cases hj : j < W
  · rw [if_pos hj]
    simp only [Option.getD_some, all_ones_testBit, hj, decide_True, Bool.true_and]
  · rw [if_neg hj]
    simp only [Option.getD_none, Nat.zero_testBit, hj, decide_False, Bool.false_and]

theorem replicate_zero_testBit (W j i : Nat) :
    (((List.replicate W (0 : Nat))[j]?).getD 0).testBit i = false := by
  rw [List.getElem?_replicate]
  by_cases hj : j < W
  · rw [if_pos hj]; simp
  · rw [if_neg hj]; simp

/-- The state built by the filling constructor: `count` bits, `ceil(count/64)`
words, and storage bit `i` of word `j` is `value` below `count` and zero from
`count` on (and at in-word indices from 64 on). -/
theorem bit_vector_fill_spec (n : Nat) (value : Bool) (h : n ≤ 2^64 - 64) :
    ∃ v, bit_vector.bit_vector_fill n value = some v ∧ v.m_size = n ∧
      v.m_bits.length = (n + 63) / 64 ∧
      ∀ j i, storage_bit v j i = (value && decide (64 * j + i < n) && decide (i < 64)) := by
  unfold bit_vector.bit_vector_fill
  rw [words_for_eq n h]
  by_cases hn : n = 0
  · subst hn
    refine ⟨_, rfl, rfl, rfl, ?_⟩
    intro j i
    simp [storage_bit]
  · have hW : (n + 63) / 64 ≠ 0 := by omega
    simp only [bne_iff_ne, ne_eq, hn, not_false_eq_true, if_true, List.getLast?_replicate, hW,
      if_false, List.length_replicate]
    cases value with
    | false =>
      have hz : (2^64 - false.toNat) % 2^64 = 0 := by decide
      rw [hz]
      simp only [Bool.false_and, Bool.false_eq_true, if_false]
      refine ⟨_, rfl, rfl, by simp, ?_⟩
      intro j i
      rw [storage_bit_mk, replicate_zero_testBit]
    | true =>
      have hz : (2^64 - true.toNat) % 2^64 = 2^64 - 1 := by decide
      rw [hz]
      by_cases hp : n % 64 = 0
      · simp only [hp, bne_self_eq_false, Bool.and_false, Bool.false_eq_true, if_false]
        refine ⟨_, rfl, rfl, by simp, ?_⟩
        intro j i
        rw [storage_bit_mk, replicate_ones_testBit, Bool.true_and, ← Bool.decide_and,
          ← Bool.decide_and]
        apply decide_eq_decide.mpr
        omega
      · have hc : (true && (n % 64 != 0)) = true := by simpa using hp
        rw [if_pos hc]
        refine ⟨_, rfl, rfl, by simp, ?_⟩
        intro j i
        rw [storage_bit_mk, List.getElem?_set, Bool.true_and, ← Bool.decide_and]
        by_cases hj : (n + 63) / 64 - 1 = j
        · have hjlt : (n + 63) / 64 - 1 < (List.replicate ((n + 63) / 64) (2^64 - 1 : Nat)).length := by
            rw [List.length_replicate]; omega
          rw [if_pos hj, if_pos hjlt]
          simp only [Option.getD_some, Nat.testBit_shiftRight, all_ones_testBit]
          apply decide_eq_decide.mpr
          omega
        · rw [if_neg hj, replicate_ones_testBit, ← Bool.decide_and]
          apply decide_eq_decide.mpr
          omega

end bv

namespace bv

/-! ## Appending one bit -/

theorem getLast?_of_length_pos (l : List Nat) (h : 0 < l.length) :
    l.getLast? = some (l[l.length - 1]) := by
  rw [List.getLast?_eq_getElem?, List.getElem?_eq_getElem]

theorem storage_bit_def (v : bit_vector) (j i : Nat) :
    storage_bit v j i = (v.m_bits[j]?.getD 0).testBit i := by
  unfold storage_bit
  rw [List.getD_eq_getElem?_getD]

theorem storage_bit_of_length_le (v : bit_vector) (j i : Nat) (h : v.m_bits.length ≤ j) :
    storage_bit v j i = false := by
  unfold storage_bit
  rw [List.getD_eq_getElem?_getD, List.getElem?_eq_none h]
  exact Nat.zero_testBit i

/-- What `push_back` does to a container that satisfies I1: it returns, the
length is incremented as a `size_t`, the buffer has `m_size / 64 + 1` words, and
the only storage bit that can change is the one at the old length, which is
OR-ed with `b`. -/
theorem push_back_spec (v : bit_vector) (b : Bool) (hI : I1 v) :
    ∃ v1, v.push_back b = some v1 ∧ v1.m_size = (v.m_size + 1) % 2^64 ∧
      v1.m_bits.length = v.m_size / 64 + 1 ∧
      ∀ j i, storage_bit v1 j i
        = if j = v.m_size / 64 ∧ i = v.m_size % 64 then (storage_bit v j i || b)
          else storage_bit v j i := by
  unfold I1 at hI
  unfold bit_vector.push_back
  have hs : v.m_size % 64 < 64 := Nat.mod_lt _ (by decide)
  by_cases hp : v.m_size % 64 = 0
  · have hlen : v.m_bits.length = v.m_size / 64 := by omega
    simp only [hp, beq_self_eq_true, if_true, List.getLast?_concat]
    refine ⟨_, rfl, rfl, by simp [hlen], ?_⟩
    intro j i
    have hl1 : (v.m_bits ++ [0]).length - 1 = v.m_size / 64 := by
      rw [List.length_append, hlen]; rfl
    have hout : ∀ k, storage_bit v (v.m_size / 64) k = false := fun k =>
      storage_bit_of_length_le v _ k (by omega)
    rw [storage_bit_mk, List.getElem?_set, hl1]
    by_cases hj : v.m_size / 64 = j
    · subst hj
      have hlt : v.m_size / 64 < (v.m_bits ++ [0]).length := by
        rw [List.length_append, hlen]; exact Nat.lt_succ_self _
      rw [if_pos rfl, if_pos hlt, Option.getD_some, or_word_testBit 0 0 b (by decide) i, hout]
      by_cases hi : i = 0
      · simp [hi]
      · simp [hi]
    · rw [if_neg hj, if_neg (fun e => hj e.1.symm)]
      by_cases hjl : j < v.m_bits.length
      · rw [List.getElem?_append_left hjl]
        exact (storage_bit_def v j i).symm
      · rw [storage_bit_of_length_le v j i (by omega), List.getElem?_eq_none]
        · exact Nat.zero_testBit i
        · rw [List.length_append, hlen]
          show v.m_size / 64 + 1 ≤ j
          omega
  · have hlen : v.m_bits.length = v.m_size / 64 + 1 := by omega
    have hb : (v.m_size % 64 == 0) = false := by simpa using hp
    simp only [hb, Bool.false_eq_true, if_false]
    rw [getLast?_of_length_pos v.m_bits (by omega)]
    refine ⟨_, rfl, rfl, by simp [hlen], ?_⟩
    intro j i
    have hl1 : v.m_bits.length - 1 = v.m_size / 64 := by omega
    have hlt : v.m_size / 64 < v.m_bits.length := by omega
    rw [storage_bit_mk, List.getElem?_set]
    simp only [hl1]
    by_cases hj : v.m_size / 64 = j
    · subst hj
      rw [if_pos rfl, if_pos hlt, Option.getD_some, or_word_testBit _ _ b hs i,
        storage_bit_of_getElem v _ _ hlt]
      by_cases hi : i = v.m_size % 64
      · subst hi; simp
      · simp [hi]
    · rw [if_neg hj, if_neg (fun e => hj e.1.symm)]
      exact (storage_bit_def v j i).symm

end bv

namespace bv

/-! ## Containers as bit sequences -/

theorem getD_append_singleton (bs : List Bool) (b : Bool) (q : Nat) :
    (bs ++ [b]).getD q false = if q = bs.length then b else bs.getD q false := by
  rw [List.getD_eq_getElem?_getD, List.getD_eq_getElem?_getD]
  by_cases hq : q < bs.length
  · rw [List.getElem?_append_left hq, if_neg (by omega)]
  · rw [List.getElem?_append_right (by omega)]
    by_cases he : q = bs.length
    · subst he; simp
    · rw [if_neg he, List.getElem?_eq_none (l := bs) (by omega), List.getElem?_eq_none]
      simp only [List.length_singleton]
      omega

theorem holds_default : holds bit_vector.bit_vector_default [] := by
  refine ⟨rfl, rfl, ?_⟩
  intro j i
  simp [storage_bit, bit_vector.bit_vector_default]

theorem holds_test (v : bit_vector) (bs : List Bool) (h : holds v bs) (p : Nat)
    (hp : p < bs.length) : v.test p = some bs[p] := by
  obtain ⟨hsz, hI, hbits⟩ := h
  have hps : p < v.m_size := by omega
  rw [test_eq_storage_bit v p hps (I1_block_lt v hI p hps), hbits,
    Nat.div_add_mod p 64, List.getD_eq_getElem?_getD, List.getElem?_eq_getElem hp]
  simp [Nat.mod_lt p (show 0 < 64 by decide)]

theorem holds_push_back (v : bit_vector) (bs : List Bool) (b : Bool) (h : holds v bs)
    (hlen : bs.length + 1 < 2^64) :
    ∃ v1, v.push_back b = some v1 ∧ holds v1 (bs ++ [b]) := by
  obtain ⟨hsz, hI, hbits⟩ := h
  obtain ⟨v1, hpush, hsz1, hlen1, hbits1⟩ := push_back_spec v b hI
  refine ⟨v1, hpush, ?_, ?_, ?_⟩
  · rw [hsz1, hsz, List.length_append, List.length_singleton]
    exact Nat.mod_eq_of_lt hlen
  · unfold I1
    rw [hlen1, hsz1, hsz, Nat.mod_eq_of_lt hlen]
    omega
  · intro j i
    rw [hbits1, hbits, getD_append_singleton, ← hsz]
    by_cases hc : j = v.m_size / 64 ∧ i = v.m_size % 64
    · obtain ⟨hj, hi⟩ := hc
      have hq : 64 * j + i = v.m_size := by
        rw [hj, hi]; exact Nat.div_add_mod _ _
      have hi64 : i < 64 := by rw [hi]; exact Nat.mod_lt _ (by decide)
      rw [if_pos ⟨hj, hi⟩, if_pos hq, hq, hsz,
        List.getD_eq_getElem?_getD, List.getElem?_eq_none (Nat.le_refl _)]
      simp [hi64]
    · rw [if_neg hc]
      by_cases hi64 : i < 64
      · have hq : 64 * j + i ≠ v.m_size := by
          intro e
          apply hc
          omega
        rw [if_neg hq]
      · simp [hi64]

theorem holds_push_all (cs : List Bool) :
    ∀ (v : bit_vector) (bs : List Bool), holds v bs → bs.length + cs.length < 2^64 →
      ∃ v1, push_all v cs = some v1 ∧ holds v1 (bs ++ cs) := by
  induction cs with
  | nil =>
    intro v bs h _
    exact ⟨v, rfl, by rw [List.append_nil]; exact h⟩
  | cons c cs ih =>
    intro v bs h hlen
    rw [List.length_cons] at hlen
    obtain ⟨v1, hpush, h1⟩ := holds_push_back v bs c h (by omega)
    obtain ⟨v2, hall, h2⟩ := ih v1 (bs ++ [c]) h1 (by
      rw [List.length_append, List.length_singleton]; omega)
    refine ⟨v2, ?_, ?_⟩
    · show (match v.push_back c with
        | none => none
        | some v1 => push_all v1 cs) = some v2
      rw [hpush]
      exact hall
    · rw [List.append_assoc] at h2
      exact h2

end bv

namespace bv

/-! ## Settled claims -/

/-- C1: for every bit count `n ≤ 2^64 - 64` and every `value`, the filling
constructor `bit_vector(n, value)` returns a container with `size() == n`,
`empty()` exactly when `n == 0`, and `operator[](p) == value` for every
position `p < n`. The statement is for all `n` in range, so it covers `n == 0`,
multiples of 64 and a partial last word. -/
theorem C1_fill_size_and_reads (n : Nat) (value : Bool) (h : n ≤ 2^64 - 64) :
    ∃ v, bit_vector.bit_vector_fill n value = some v ∧ v.size = n ∧
      (v.empty = true ↔ n = 0) ∧ ∀ p, p < n → v.operator_index p = some value := by
  obtain ⟨v, hv, hsz, hlen, hbits⟩ := bit_vector_fill_spec n value h
  refine ⟨v, hv, hsz, ?_, ?_⟩
  · unfold bit_vector.empty
    rw [hsz]
    exact beq_iff_eq
  · intro p hp
    have hps : p < v.m_size := by omega
    have hI : I1 v := hlen.trans (by rw [hsz])
    unfold bit_vector.operator_index
    rw [test_eq_storage_bit v p hps (I1_block_lt v hI p hps), hbits, Nat.div_add_mod p 64]
    simp [hp, Nat.mod_lt p (show 0 < 64 by decide)]

theorem C1_fill_size_and_reads_witness :
    130 ≤ 2^64 - 64 ∧ ∃ v, bit_vector.bit_vector_fill 130 true = some v ∧ v.size = 130 ∧
      (v.empty = true ↔ 130 = 0) ∧ ∀ p, p < 130 → v.operator_index p = some true :=
  ⟨by decide, C1_fill_size_and_reads 130 true (by decide)⟩

/-- C2: starting from a default-constructed container and pushing the bits
`b_0 .. b_{n-1}` in order (`n` a `size_t` value, `n == 0` included) returns a
container with `size() == n`, `empty() == (n == 0)` and
`operator[](i) == b_i` for every `i < n`. -/
theorem C2_push_back_sequence_reads_back (bs : List Bool) (h : bs.length < 2^64) :
    ∃ v, push_all bit_vector.bit_vector_default bs = some v ∧ v.size = bs.length ∧
      v.empty = decide (bs.length = 0) ∧
      ∀ (i : Nat) (hi : i < bs.length), v.operator_index i = some bs[i] := by
  obtain ⟨v, hv, hh⟩ := holds_push_all bs bit_vector.bit_vector_default [] holds_default
    (by simpa using h)
  rw [List.nil_append] at hh
  refine ⟨v, hv, hh.1, ?_, ?_⟩
  · unfold bit_vector.empty
    rw [hh.1]
    by_cases h0 : bs.length = 0 <;> simp [h0]
  · intro i hi
    exact holds_test v bs hh i hi

theorem C2_push_back_sequence_reads_back_witness :
    [true, false, true].length < 2^64 ∧
    ∃ v, push_all bit_vector.bit_vector_default [true, false, true] = some v ∧
      v.size = [true, false, true].length ∧
      v.empty = decide ([true, false, true].length = 0) ∧
      ∀ (i : Nat) (hi : i < [true, false, true].length),
        v.operator_index i = some [true, false, true][i] :=
  ⟨by decide, C2_push_back_sequence_reads_back [true, false, true] (by decide)⟩

theorem set_then_test (v : bit_vector) (p : Nat) (x : Bool) (hI : I1 v) (hp : p < v.m_size) :
    ∃ v1, v.set p x = some v1 ∧ v1.test p = some x := by
  have hblk := I1_block_lt v hI p hp
  obtain ⟨v1, hset⟩ := set_eq_some v p x hblk
  obtain ⟨hsz, hlen, _, _⟩ := set_spec v p x v1 hset
  refine ⟨v1, hset, ?_⟩
  rw [test_eq_storage_bit v1 p (by omega) (by omega),
    set_storage_bit v p x v1 hset _ _ (Nat.mod_lt p (by decide)), if_pos ⟨rfl, rfl⟩]

/-- C3: on a container whose word count is `ceil(length / 64)`, for every
position `p < length` and every boolean `x`, writing `x` at `p` and then
reading `p` returns `x` whatever the bit was before: by the direct write
`set(p, x)`, by the proxy assignment `v[p] = x`, and by the proxy-to-proxy
assignment `v[p] = w[q]` where `x` is the bit read at position `q` of `w`. -/
theorem C3_write_then_read (v : bit_vector) (p : Nat) (x : Bool) (hI : I1 v)
    (hp : p < v.m_size) :
    (∃ v1, v.set p x = some v1 ∧ v1.operator_index p = some x) ∧
    (∃ v1, reference.assign v (v.operator_index_ref p) x = some v1 ∧
      reference.to_bool v1 (v1.operator_index_ref p) = some x ∧
      v1.operator_index p = some x) ∧
    (∀ (w : bit_vector) (q : Nat), reference.to_bool w (w.operator_index_ref q) = some x →
      ∃ v1, reference.assign_ref v (v.operator_index_ref p) w (w.operator_index_ref q) = some v1 ∧
        v1.operator_index p = some x) := by
  obtain ⟨v1, hset, htest⟩ := set_then_test v p x hI hp
  refine ⟨⟨v1, hset, htest⟩, ⟨v1, hset, htest, htest⟩, ?_⟩
  intro w q hw
  refine ⟨v1, ?_, htest⟩
  unfold reference.assign_ref
  rw [hw]
  exact hset

theorem C3_write_then_read_witness :
    I1 { m_bits := [1023], m_size := 10 } ∧ 5 < (bit_vector.mk [1023] 10).m_size ∧
    ((∃ v1, (bit_vector.mk [1023] 10).set 5 false = some v1 ∧
        v1.operator_index 5 = some false) ∧
    (∃ v1, reference.assign (bit_vector.mk [1023] 10)
        ((bit_vector.mk [1023] 10).operator_index_ref 5) false = some v1 ∧
      reference.to_bool v1 (v1.operator_index_ref 5) = some false ∧
      v1.operator_index 5 = some false) ∧
    (∀ (w : bit_vector) (q : Nat), reference.to_bool w (w.operator_index_ref q) = some false →
      ∃ v1, reference.assign_ref (bit_vector.mk [1023] 10)
          ((bit_vector.mk [1023] 10).operator_index_ref 5) w (w.operator_index_ref q) = some v1 ∧
        v1.operator_index 5 = some false)) :=
  ⟨rfl, by decide, C3_write_then_read (bit_vector.mk [1023] 10) 5 false rfl (by decide)⟩

end bv

namespace bv

/-- C4: an indexed write changes only the addressed bit. On a container whose
word count is `ceil(length / 64)`, for `p < length`, `set(p, x)` and the proxy
assignment `v[p] = x` return the same state, in which the length and the word
count are unchanged, `operator[](q)` is unchanged for every `q < length` other
than `p`, every word other than word `p / 64` is unchanged, and every bit of
word `p / 64` other than bit `p % 64` is unchanged (tail bits included). -/
theorem C4_write_changes_only_addressed_bit (v : bit_vector) (p : Nat) (x : Bool) (hI : I1 v)
    (hp : p < v.m_size) :
    ∃ v1, v.set p x = some v1 ∧
      reference.assign v (v.operator_index_ref p) x = some v1 ∧
      v1.size = v.size ∧ v1.m_bits.length = v.m_bits.length ∧
      (∀ q, q < v.size → q ≠ p → v1.operator_index q = v.operator_index q) ∧
      (∀ j, j ≠ p / 64 → v1.m_bits[j]? = v.m_bits[j]?) ∧
      (∀ i, i < 64 → i ≠ p % 64 → storage_bit v1 (p / 64) i = storage_bit v (p / 64) i) := by
  have hblk := I1_block_lt v hI p hp
  obtain ⟨v1, hset⟩ := set_eq_some v p x hblk
  obtain ⟨hsz, hlen, hother, _⟩ := set_spec v p x v1 hset
  refine ⟨v1, hset, hset, hsz, hlen, ?_, hother, ?_⟩
  · intro q hq hqp
    have hq1 : q < v.m_size := hq
    have hqb := I1_block_lt v hI q hq1
    unfold bit_vector.operator_index
    rw [test_eq_storage_bit v1 q (by omega) (by omega), test_eq_storage_bit v q hq1 hqb,
      set_storage_bit v p x v1 hset _ _ (Nat.mod_lt q (by decide)), if_neg]
    intro hc
    apply hqp
    have h1 := Nat.div_add_mod q 64
    have h2 := Nat.div_add_mod p 64
    omega
  · intro i hi hne
    rw [set_storage_bit v p x v1 hset _ _ hi, if_neg (fun hc => hne hc.2)]

theorem C4_write_changes_only_addressed_bit_witness :
    I1 { m_bits := [1023], m_size := 10 } ∧ 5 < (bit_vector.mk [1023] 10).m_size ∧
    ∃ v1, (bit_vector.mk [1023] 10).set 5 false = some v1 ∧
      reference.assign (bit_vector.mk [1023] 10)
        ((bit_vector.mk [1023] 10).operator_index_ref 5) false = some v1 ∧
      v1.size = (bit_vector.mk [1023] 10).size ∧
      v1.m_bits.length = (bit_vector.mk [1023] 10).m_bits.length ∧
      (∀ q, q < (bit_vector.mk [1023] 10).size → q ≠ 5 →
        v1.operator_index q = (bit_vector.mk [1023] 10).operator_index q) ∧
      (∀ j, j ≠ 5 / 64 → v1.m_bits[j]? = (bit_vector.mk [1023] 10).m_bits[j]?) ∧
      (∀ i, i < 64 → i ≠ 5 % 64 →
        storage_bit v1 (5 / 64) i = storage_bit (bit_vector.mk [1023] 10) (5 / 64) i) :=
  ⟨rfl, by decide,
    C4_write_changes_only_addressed_bit (bit_vector.mk [1023] 10) 5 false rfl (by decide)⟩

/-- C5 (the code at the failing input): `bit_vector(10)` followed by the bulk
`set()` satisfies I1, yet pushing `false` onto it returns a container whose
new last position, `10`, reads `true`. -/
theorem C5_push_false_after_set_all_reads_true :
    ∃ v0 v1, bit_vector.bit_vector_fill 10 false = some v0 ∧ I1 v0.set_all ∧
      v0.set_all.size = 10 ∧
      push_all v0.set_all [false] = some v1 ∧
      v1.operator_index (v0.set_all.size + 0) = some true ∧
      v1.operator_index (v0.set_all.size + 0) ≠ some ([false].getD 0 false) :=
  ⟨{ m_bits := [0], m_size := 10 }, { m_bits := [2^64 - 1], m_size := 11 },
    by decide, rfl, rfl, by decide, by decide, by decide⟩

/-- C6: `a.swap(b)` exchanges the two states exactly: afterwards `a` has the
former length and word sequence of `b` (hence its bit at every position) and
`b` has those of `a`; swapping twice restores both containers. -/
theorem C6_swap_exchanges_states (a b : bit_vector) :
    (a.swap b).1 = b ∧ (a.swap b).2 = a ∧
    (a.swap b).1.size = b.size ∧ (a.swap b).1.m_bits = b.m_bits ∧
    (a.swap b).2.size = a.size ∧ (a.swap b).2.m_bits = a.m_bits ∧
    (∀ p, (a.swap b).1.operator_index p = b.operator_index p) ∧
    (∀ p, (a.swap b).2.operator_index p = a.operator_index p) ∧
    (a.swap b).1.swap (a.swap b).2 = (a, b) :=
  ⟨rfl, rfl, rfl, rfl, rfl, rfl, fun _ => rfl, fun _ => rfl, rfl⟩

theorem operator_eq_iff (a b : bit_vector) :
    a.operator_eq b = true ↔ (a.m_size = b.m_size ∧ a.m_bits = b.m_bits) := by
  unfold bit_vector.operator_eq
  rw [Bool.and_eq_true, beq_iff_eq, beq_iff_eq]

/-- C7: `operator==` holds exactly when the lengths are equal and the word
sequences are equal element by element, tail bits included; and
`bit_vector(10, true)` and `bit_vector(10, false)` followed by the bulk `set()`
both have size 10 and read `true` at positions 0..9, while their single words
are `0x3FF` and all-ones, so they compare unequal. -/
theorem C7_equality_is_word_for_word :
    (∀ a b : bit_vector, a.operator_eq b = true ↔
      (a.m_size = b.m_size ∧ a.m_bits.length = b.m_bits.length ∧
        ∀ j : Nat, a.m_bits[j]? = b.m_bits[j]?)) ∧
    ∃ a b0, bit_vector.bit_vector_fill 10 true = some a ∧
      bit_vector.bit_vector_fill 10 false = some b0 ∧
      a.size = 10 ∧ b0.set_all.size = 10 ∧
      (∀ p, p < 10 → a.operator_index p = some true ∧ b0.set_all.operator_index p = some true) ∧
      a.m_bits = [0x3FF] ∧ b0.set_all.m_bits = [2^64 - 1] ∧
      a.operator_eq b0.set_all = false ∧ a.operator_ne b0.set_all = true := by
  constructor
  · intro a b
    rw [operator_eq_iff]
    constructor
    · rintro ⟨h1, h2⟩
      exact ⟨h1, by rw [h2], fun j => by rw [h2]⟩
    · rintro ⟨h1, _, h3⟩
      exact ⟨h1, List.ext_getElem? h3⟩
  · refine ⟨{ m_bits := [1023], m_size := 10 }, { m_bits := [0], m_size := 10 },
      by decide, by decide, rfl, rfl, ?_, rfl, rfl, by decide, by decide⟩
    decide

theorem set_all_storage_bit (v : bit_vector) (j i : Nat) (h : j < v.m_bits.length) :
    storage_bit v.set_all j i = decide (i < 64) := by
  rw [storage_bit_def]
  unfold bit_vector.set_all
  simp only [List.getElem?_map, List.getElem?_eq_getElem h, Option.map_some, Option.getD_some]
  exact all_ones_testBit i

/-- C10: on a container whose word count is `ceil(length / 64)`, the bulk
`set()` keeps the length and the word count, makes every storage word
all-ones, and afterwards `operator[](p) == true` for every `p < size()`,
whatever the bits were before. -/
theorem C10_set_all_makes_every_word_all_ones (v : bit_vector) (hI : I1 v) :
    v.set_all.size = v.size ∧ v.set_all.m_bits.length = v.m_bits.length ∧
    (∀ (j : Nat) (hj : j < v.set_all.m_bits.length), v.set_all.m_bits[j] = 2^64 - 1) ∧
    ∀ p, p < v.set_all.size → v.set_all.operator_index p = some true := by
  have hlen : v.set_all.m_bits.length = v.m_bits.length := by
    unfold bit_vector.set_all
    simp only [List.length_map]
  refine ⟨rfl, hlen, ?_, ?_⟩
  · intro j hj
    unfold bit_vector.set_all
    simp only [List.getElem_map]
  · intro p hp
    have hp1 : p < v.m_size := hp
    have hblk := I1_block_lt v hI p hp1
    unfold bit_vector.operator_index
    rw [test_eq_storage_bit v.set_all p hp1 (by omega), set_all_storage_bit v _ _ hblk]
    simp [Nat.mod_lt p (show 0 < 64 by decide)]

theorem C10_set_all_makes_every_word_all_ones_witness :
    I1 { m_bits := [5], m_size := 10 } ∧
    ((bit_vector.mk [5] 10).set_all.size = (bit_vector.mk [5] 10).size ∧
    (bit_vector.mk [5] 10).set_all.m_bits.length = (bit_vector.mk [5] 10).m_bits.length ∧
    (∀ (j : Nat) (hj : j < (bit_vector.mk [5] 10).set_all.m_bits.length),
      (bit_vector.mk [5] 10).set_all.m_bits[j] = 2^64 - 1) ∧
    ∀ p, p < (bit_vector.mk [5] 10).set_all.size →
      (bit_vector.mk [5] 10).set_all.operator_index p = some true) :=
  ⟨rfl, C10_set_all_makes_every_word_all_ones (bit_vector.mk [5] 10) rfl⟩

end bv

namespace bv

/-! ## Iteration -/

theorem operator_eq_self (v : bit_vector) : v.operator_eq v = true :=
  (operator_eq_iff v v).mpr ⟨rfl, rfl⟩

theorem const_operator_ne_end (v : bit_vector) (pos : Nat) :
    const_iterator.operator_ne v { m_pos := pos } v v.cend = !decide (pos = v.m_size) := by
  unfold const_iterator.operator_ne const_iterator.operator_eq bit_vector.cend
  rw [operator_eq_self, Bool.and_true]
  by_cases h : pos = v.m_size <;> simp [h]

theorem const_iterate_from_spec (v : bit_vector) (hI : I1 v) (hsz : v.m_size < 2^64) :
    ∀ (k pos : Nat), pos + k = v.m_size →
      ∃ out : List Bool, out.length = k ∧
        (∀ (i : Nat) (hi : i < out.length), v.test (pos + i) = some out[i]) ∧
        (∀ fuel, k ≤ fuel → const_iterate_from v fuel { m_pos := pos } = some out) ∧
        (∀ fuel, fuel < k → const_iterate_from v fuel { m_pos := pos } = none) := by
  intro k
  induction k with
  | zero =>
    intro pos hpos
    refine ⟨[], rfl, ?_, ?_, ?_⟩
    · intro i hi
      exact absurd hi (Nat.not_lt_zero _)
    · intro fuel _
      unfold const_iterate_from
      rw [const_operator_ne_end, if_neg]
      simp only [Nat.add_zero] at hpos
      simp [hpos]
    · intro fuel hf
      exact absurd hf (Nat.not_lt_zero _)
  | succ k ih =>
    intro pos hpos
    have hlt : pos < v.m_size := by omega
    have hne : const_iterator.operator_ne v { m_pos := pos } v v.cend = true := by
      rw [const_operator_ne_end]
      have : pos ≠ v.m_size := by omega
      simp [this]
    obtain ⟨rest, hlen, hread, hsome, hnone⟩ := ih (pos + 1) (by omega)
    have hincr : const_iterator.incr { m_pos := pos } = { m_pos := pos + 1 } := by
      unfold const_iterator.incr
      show const_iterator.mk ((pos + 1) % 2^64) = _
      rw [Nat.mod_eq_of_lt (by omega)]
    have hderef : const_iterator.deref v { m_pos := pos }
        = some (storage_bit v (pos / 64) (pos % 64)) :=
      test_eq_storage_bit v pos hlt (I1_block_lt v hI pos hlt)
    refine ⟨storage_bit v (pos / 64) (pos % 64) :: rest, by rw [List.length_cons, hlen], ?_, ?_, ?_⟩
    · intro i hi
      cases i with
      | zero => exact hderef
      | succ i =>
        rw [List.length_cons] at hi
        have := hread i (by omega)
        rw [List.getElem_cons_succ, ← this]
        congr 1
        omega
    · intro fuel hf
      cases fuel with
      | zero => exact absurd hf (by omega)
      | succ fuel =>
        unfold const_iterate_from
        rw [if_pos hne]
        simp only [hderef, hincr, hsome fuel (by omega)]
    · intro fuel hf
      cases fuel with
      | zero =>
        unfold const_iterate_from
        rw [if_pos hne]
      | succ fuel =>
        unfold const_iterate_from
        rw [if_pos hne]
        simp only [hderef, hincr, hnone fuel (by omega)]

/-- C9: on a container whose word count is `ceil(length / 64)` (its length a
`size_t`), the read-only loop from `begin()` that dereferences and increments
until the iterator equals `end()` stops after exactly `size()` rounds (it
returns with `size()` rounds of fuel and with no fewer) and yields, in order,
`operator[](0), ..., operator[](size() - 1)`; on an empty container
`begin() == end()` and nothing is yielded; every run from `begin()` yields the
same sequence. -/
theorem C9_const_iteration_yields_all_bits (v : bit_vector) (hI : I1 v)
    (hsz : v.m_size < 2^64) :
    ∃ out : List Bool, out.length = v.size ∧
      (∀ (i : Nat) (hi : i < out.length), v.operator_index i = some out[i]) ∧
      (∀ fuel, v.size ≤ fuel → const_iterate v fuel = some out) ∧
      (∀ fuel, fuel < v.size → const_iterate v fuel = none) ∧
      (v.size = 0 → const_iterator.operator_eq v v.cbegin v v.cend = true ∧ out = []) := by
  obtain ⟨out, hlen, hread, hsome, hnone⟩ :=
    const_iterate_from_spec v hI hsz v.m_size 0 (Nat.zero_add _)
  refine ⟨out, hlen, ?_, hsome, hnone, ?_⟩
  · intro i hi
    have := hread i hi
    rw [Nat.zero_add] at this
    exact this
  · intro h0
    have h0m : v.m_size = 0 := h0
    refine ⟨?_, List.eq_nil_of_length_eq_zero (hlen.trans h0)⟩
    unfold const_iterator.operator_eq bit_vector.cbegin bit_vector.cend
    rw [operator_eq_self, h0m]
    rfl

theorem C9_const_iteration_yields_all_bits_witness :
    I1 { m_bits := [5], m_size := 3 } ∧ (bit_vector.mk [5] 3).m_size < 2^64 ∧
    ∃ out : List Bool, out.length = (bit_vector.mk [5] 3).size ∧
      (∀ (i : Nat) (hi : i < out.length), (bit_vector.mk [5] 3).operator_index i = some out[i]) ∧
      (∀ fuel, (bit_vector.mk [5] 3).size ≤ fuel →
        const_iterate (bit_vector.mk [5] 3) fuel = some out) ∧
      (∀ fuel, fuel < (bit_vector.mk [5] 3).size →
        const_iterate (bit_vector.mk [5] 3) fuel = none) ∧
      ((bit_vector.mk [5] 3).size = 0 →
        const_iterator.operator_eq (bit_vector.mk [5] 3) (bit_vector.mk [5] 3).cbegin
          (bit_vector.mk [5] 3) (bit_vector.mk [5] 3).cend = true ∧ out = []) :=
  ⟨rfl, by decide, C9_const_iteration_yields_all_bits (bit_vector.mk [5] 3) rfl (by decide)⟩

end bv

namespace bv

theorem bit_vector_ext (a b : bit_vector) (hs : a.m_size = b.m_size)
    (hl : a.m_bits.length = b.m_bits.length)
    (hb : ∀ j i, storage_bit a j i = storage_bit b j i) : a = b := by
  cases a with
  | mk abits asize =>
    cases b with
    | mk bbits bsize =>
      simp only at hs hl
      subst hs
      congr 1
      apply List.ext_getElem hl
      intro j h1 h2
      apply Nat.eq_of_testBit_eq
      intro i
      have := hb j i
      rw [storage_bit_of_getElem _ j i h1, storage_bit_of_getElem _ j i h2] at this
      exact this

/-- On a container whose words are 64-bit values, `set` changes the addressed
storage bit and no other. -/
theorem set_storage_bit_all (v : bit_vector) (pos : Nat) (b : Bool) (v1 : bit_vector)
    (h : v.set pos b = some v1) (hw : ∀ j i, 64 ≤ i → storage_bit v j i = false) (j i : Nat) :
    storage_bit v1 j i = if j = pos / 64 ∧ i = pos % 64 then b else storage_bit v j i := by
  by_cases hi : i < 64
  · exact set_storage_bit v pos b v1 h j i hi
  · have hp : pos % 64 < 64 := Nat.mod_lt _ (by decide)
    rw [if_neg (by omega), hw j i (by omega)]
    obtain ⟨_, _, hother, hword⟩ := set_spec v pos b v1 h
    by_cases hj : j = pos / 64
    · subst hj
      rw [hword i, if_neg (by omega)]
      simp [hi]
    · rw [storage_bit_eq_of_getElem?_eq v v1 j (hother j hj) i]
      exact hw j i (by omega)

theorem operator_ne_end (v : bit_vector) (pos : Nat) :
    iterator.operator_ne v { m_pos := pos } v v.end_ = !decide (pos = v.m_size) := by
  unfold iterator.operator_ne iterator.operator_eq bit_vector.end_
  rw [operator_eq_self, Bool.and_true]
  by_cases h : pos = v.m_size <;> simp [h]

theorem iterate_assign_from_spec (x : Bool) :
    ∀ (k : Nat) (v : bit_vector) (pos : Nat), I1 v → v.m_size < 2^64 →
      (∀ j i, 64 ≤ i → storage_bit v j i = false) → pos + k = v.m_size →
      ∃ v1, (∀ fuel, k ≤ fuel → iterate_assign_from x fuel v { m_pos := pos } = some v1) ∧
        v1.m_size = v.m_size ∧ v1.m_bits.length = v.m_bits.length ∧
        ∀ j i, storage_bit v1 j i
          = if pos ≤ 64 * j + i ∧ 64 * j + i < v.m_size ∧ i < 64 then x
            else storage_bit v j i := by
  intro k
  induction k with
  | zero =>
    intro v pos _ _ _ hpos
    refine ⟨v, ?_, rfl, rfl, ?_⟩
    · intro fuel _
      unfold iterate_assign_from
      rw [operator_ne_end, if_neg]
      simp only [Nat.add_zero] at hpos
      simp [hpos]
    · intro j i
      rw [if_neg (by omega)]
  | succ k ih =>
    intro v pos hI hsz hw hpos
    have hlt : pos < v.m_size := by omega
    have hne : iterator.operator_ne v { m_pos := pos } v v.end_ = true := by
      rw [operator_ne_end]
      have : pos ≠ v.m_size := by omega
      simp [this]
    obtain ⟨v', hset⟩ := set_eq_some v pos x (I1_block_lt v hI pos hlt)
    obtain ⟨hsz', hlen', _, _⟩ := set_spec v pos x v' hset
    have hbits' := set_storage_bit_all v pos x v' hset hw
    have hI' : I1 v' := by
      unfold I1 at hI ⊢
      rw [hlen', hsz']
      exact hI
    have hw' : ∀ j i, 64 ≤ i → storage_bit v' j i = false := by
      intro j i hi
      have hp : pos % 64 < 64 := Nat.mod_lt _ (by decide)
      rw [hbits' j i, if_neg (by omega)]
      exact hw j i hi
    obtain ⟨v1, hrun, hsz1, hlen1, hbits1⟩ :=
      ih v' (pos + 1) hI' (by omega) hw' (by omega)
    have hincr : iterator.incr { m_pos := pos } = { m_pos := pos + 1 } := by
      unfold iterator.incr
      show iterator.mk ((pos + 1) % 2^64) = _
      rw [Nat.mod_eq_of_lt (by omega)]
    have hassign : reference.assign v (iterator.deref { m_pos := pos }) x = some v' := hset
    refine ⟨v1, ?_, by omega, by omega, ?_⟩
    · intro fuel hf
      cases fuel with
      | zero => exact absurd hf (by omega)
      | succ fuel =>
        unfold iterate_assign_from
        rw [if_pos hne]
        simp only [hassign, hincr, hrun fuel (by omega)]
    · intro j i
      rw [hbits1 j i, hbits' j i, hsz']
      have h1 := Nat.div_add_mod pos 64
      have hp : pos % 64 < 64 := Nat.mod_lt _ (by decide)
      by_cases hc : pos + 1 ≤ 64 * j + i ∧ 64 * j + i < v.m_size ∧ i < 64
      · rw [if_pos hc, if_pos ⟨by omega, hc.2.1, hc.2.2⟩]
      · rw [if_neg hc]
        by_cases hc2 : j = pos / 64 ∧ i = pos % 64
        · rw [if_pos hc2, if_pos (by omega)]
        · rw [if_neg hc2, if_neg]
          intro hc3
          apply hc2
          omega

/-- C8: for every `n ≤ 2^64 - 64` and every `x`, building `bit_vector(n, !x)`
and walking the mutable iterator from `begin()` until it equals `end()`,
assigning `x` through the dereferenced proxy at every step, returns (with `n`
rounds of fuel or more) a container that compares equal under `operator==` to
`bit_vector(n, x)`, tail bits included, and reads `x` at every position. -/
theorem C8_iterate_assign_equals_fill (n : Nat) (x : Bool) (h : n ≤ 2^64 - 64) :
    ∃ v0 v1 vx, bit_vector.bit_vector_fill n (!x) = some v0 ∧
      bit_vector.bit_vector_fill n x = some vx ∧
      (∀ fuel, n ≤ fuel → iterate_assign x fuel v0 = some v1) ∧
      v1.operator_eq vx = true ∧ v1.size = n ∧ v1.m_bits = vx.m_bits ∧
      ∀ p, p < n → v1.operator_index p = some x := by
  obtain ⟨v0, hv0, hsz0, hlen0, hbits0⟩ := bit_vector_fill_spec n (!x) h
  obtain ⟨vx, hvx, hszx, hlenx, hbitsx⟩ := bit_vector_fill_spec n x h
  have hI0 : I1 v0 := hlen0.trans (by rw [hsz0])
  have hIx : I1 vx := hlenx.trans (by rw [hszx])
  have hn : n < 2^64 := by
    have : (64 : Nat) ≤ 2^64 := by decide
    omega
  have hw0 : ∀ j i, 64 ≤ i → storage_bit v0 j i = false := by
    intro j i hi
    rw [hbits0 j i]
    have : ¬ i < 64 := by omega
    simp [this]
  obtain ⟨v1, hrun, hsz1, hlen1, hbits1⟩ :=
    iterate_assign_from_spec x n v0 0 hI0 (by omega) hw0 (by omega)
  have heq : v1 = vx := by
    apply bit_vector_ext v1 vx (by omega) (by omega)
    intro j i
    rw [hbits1 j i, hbitsx j i, hbits0 j i, hsz0]
    by_cases hc : 0 ≤ 64 * j + i ∧ 64 * j + i < n ∧ i < 64
    · rw [if_pos hc]
      simp [hc.2.1, hc.2.2]
    · rw [if_neg hc]
      by_cases h1 : 64 * j + i < n
      · have h2 : ¬ i < 64 := fun h2 => hc ⟨Nat.zero_le _, h1, h2⟩
        simp [h2]
      · simp [h1]
  refine ⟨v0, v1, vx, hv0, hvx, ?_, ?_, hsz1.trans hsz0, by rw [heq], ?_⟩
  · intro fuel hf
    exact hrun fuel (by omega)
  · rw [heq]
    exact operator_eq_self vx
  · intro p hp
    rw [heq]
    unfold bit_vector.operator_index
    rw [test_eq_storage_bit vx p (by omega) (I1_block_lt vx hIx p (by omega)), hbitsx,
      Nat.div_add_mod p 64]
    simp [hp, Nat.mod_lt p (show 0 < 64 by decide)]

theorem C8_iterate_assign_equals_fill_witness :
    10 ≤ 2^64 - 64 ∧
    ∃ v0 v1 vx, bit_vector.bit_vector_fill 10 (!true) = some v0 ∧
      bit_vector.bit_vector_fill 10 true = some vx ∧
      (∀ fuel, 10 ≤ fuel → iterate_assign true fuel v0 = some v1) ∧
      v1.operator_eq vx = true ∧ v1.size = 10 ∧ v1.m_bits = vx.m_bits ∧
      ∀ p, p < 10 → v1.operator_index p = some true :=
  ⟨by decide, C8_iterate_assign_equals_fill 10 true (by decide)⟩

end bv

namespace bv

/-! ## Tail bits and the sizing invariant -/

theorem getLast?_of_storage_bit (v : bit_vector) (w : Nat) (hlen : 0 < v.m_bits.length)
    (hb : ∀ i, storage_bit v (v.m_bits.length - 1) i = w.testBit i) :
    v.m_bits.getLast? = some w := by
  rw [getLast?_of_length_pos v.m_bits hlen]
  congr 1
  apply Nat.eq_of_testBit_eq
  intro i
  rw [← hb i, storage_bit_of_getElem v _ i (by omega)]

theorem getElem?_eq_of_storage_bit (v v1 : bit_vector) (j : Nat) (h : j < v.m_bits.length)
    (h1 : j < v1.m_bits.length) (hb : ∀ i, storage_bit v1 j i = storage_bit v j i) :
    v1.m_bits[j]? = v.m_bits[j]? := by
  rw [List.getElem?_eq_getElem h, List.getElem?_eq_getElem h1]
  congr 1
  apply Nat.eq_of_testBit_eq
  intro i
  rw [← storage_bit_of_getElem v1 j i h1, ← storage_bit_of_getElem v j i h]
  exact hb i

/-- C11: right after `bit_vector(count, value)` with `count ≤ 2^64 - 64`, for
both values of `value`, every tail bit is zero: when `count % 64 != 0`, each
bit of the last storage word at an in-word index from `count % 64` on is 0.
For `value == true` the last word is `2^(count % 64) - 1` when
`count % 64 != 0` and all-ones when `count` is a positive multiple of 64. -/
theorem C11_fill_tail_bits_zero (count : Nat) (value : Bool) (h : count ≤ 2^64 - 64) :
    ∃ v, bit_vector.bit_vector_fill count value = some v ∧
      (count % 64 ≠ 0 → ∀ i, count % 64 ≤ i → i < 64 →
        storage_bit v (v.m_bits.length - 1) i = false) ∧
      (value = true → count % 64 ≠ 0 → v.m_bits.getLast? = some (2^(count % 64) - 1)) ∧
      (value = true → 0 < count → count % 64 = 0 → v.m_bits.getLast? = some (2^64 - 1)) := by
  obtain ⟨v, hv, hsz, hlen, hbits⟩ := bit_vector_fill_spec count value h
  refine ⟨v, hv, ?_, ?_, ?_⟩
  · intro hp i hi _
    rw [hbits, hlen]
    have : ¬ 64 * ((count + 63) / 64 - 1) + i < count := by omega
    simp [this]
  · intro hval hp
    apply getLast?_of_storage_bit v _ (by omega)
    intro i
    rw [hbits, hlen, hval, Nat.testBit_two_pow_sub_one, Bool.true_and, ← Bool.decide_and]
    apply decide_eq_decide.mpr
    omega
  · intro hval hpos hp
    apply getLast?_of_storage_bit v _ (by omega)
    intro i
    rw [hbits, hlen, hval, all_ones_testBit, Bool.true_and, ← Bool.decide_and]
    apply decide_eq_decide.mpr
    omega

theorem C11_fill_tail_bits_zero_witness :
    10 ≤ 2^64 - 64 ∧
    ∃ v, bit_vector.bit_vector_fill 10 true = some v ∧
      (10 % 64 ≠ 0 → ∀ i, 10 % 64 ≤ i → i < 64 →
        storage_bit v (v.m_bits.length - 1) i = false) ∧
      (true = true → 10 % 64 ≠ 0 → v.m_bits.getLast? = some (2^(10 % 64) - 1)) ∧
      (true = true → 0 < 10 → 10 % 64 = 0 → v.m_bits.getLast? = some (2^64 - 1)) :=
  ⟨by decide, C11_fill_tail_bits_zero 10 true (by decide)⟩

theorem I1_push_back (v : bit_vector) (b : Bool) (hI : I1 v) (hs : v.m_size + 1 < 2^64) :
    ∃ v1, v.push_back b = some v1 ∧ v1.m_size = v.m_size + 1 ∧ I1 v1 := by
  obtain ⟨v1, hpush, hsz1, hlen1, _⟩ := push_back_spec v b hI
  rw [Nat.mod_eq_of_lt hs] at hsz1
  refine ⟨v1, hpush, hsz1, ?_⟩
  unfold I1
  rw [hlen1, hsz1]
  omega

theorem I1_set (v : bit_vector) (p : Nat) (x : Bool) (hI : I1 v) (hp : p < v.m_size) :
    ∃ v1, v.set p x = some v1 ∧ I1 v1 := by
  obtain ⟨v1, hset⟩ := set_eq_some v p x (I1_block_lt v hI p hp)
  obtain ⟨hsz, hlen, _, _⟩ := set_spec v p x v1 hset
  refine ⟨v1, hset, ?_⟩
  unfold I1 at hI ⊢
  rw [hlen, hsz]
  exact hI

theorem I1_set_all (v : bit_vector) (hI : I1 v) : I1 v.set_all := by
  unfold I1 at hI ⊢
  unfold bit_vector.set_all
  simp only [List.length_map]
  exact hI

theorem I1_clear (v : bit_vector) : I1 v.clear := by
  unfold I1 bit_vector.clear
  rfl

/-- C12: sizing invariant I1 (the word count is `ceil(length / 64)`, so the
storage is empty exactly when the length is 0) holds for the default-constructed
container and for `bit_vector(count, value)` with `count ≤ 2^64 - 64`, and is
preserved by `push_back` (the new length a `size_t`), by in-range indexed
writes, by the bulk `set()`, by `clear()`, by `reserve`, by `swap` for both
operands and by copy construction and copy assignment. -/
theorem C12_sizing_invariant_established_and_preserved :
    (∀ v, I1 v → (v.m_bits = [] ↔ v.m_size = 0)) ∧
    I1 bit_vector.bit_vector_default ∧
    (∀ count value, count ≤ 2^64 - 64 →
      ∃ v, bit_vector.bit_vector_fill count value = some v ∧ I1 v) ∧
    (∀ (v : bit_vector) (b : Bool), I1 v → v.m_size + 1 < 2^64 →
      ∃ v1, v.push_back b = some v1 ∧ I1 v1) ∧
    (∀ (v : bit_vector) (p : Nat) (x : Bool), I1 v → p < v.m_size →
      (∃ v1, v.set p x = some v1 ∧ I1 v1) ∧
      ∃ v1, reference.assign v (v.operator_index_ref p) x = some v1 ∧ I1 v1) ∧
    (∀ v : bit_vector, I1 v → I1 v.set_all) ∧
    (∀ v : bit_vector, I1 v.clear) ∧
    (∀ (v : bit_vector) (new_cap : Nat), I1 v → I1 (v.reserve new_cap)) ∧
    (∀ a b : bit_vector, I1 a → I1 b → I1 (a.swap b).1 ∧ I1 (a.swap b).2) ∧
    (∀ other, I1 other → I1 (bit_vector.bit_vector_copy other)) ∧
    (∀ v other : bit_vector, I1 other → I1 (v.assign_copy other)) := by
  refine ⟨?_, rfl, ?_, ?_, ?_, I1_set_all, I1_clear, fun _ _ h => h,
    fun _ _ ha hb => ⟨hb, ha⟩, fun _ h => h, fun _ _ h => h⟩
  · intro v hI
    unfold I1 at hI
    rw [← List.length_eq_zero]
    omega
  · intro count value h
    obtain ⟨v, hv, hsz, hlen, _⟩ := bit_vector_fill_spec count value h
    exact ⟨v, hv, hlen.trans (by rw [hsz])⟩
  · intro v b hI hs
    obtain ⟨v1, hpush, _, hI1⟩ := I1_push_back v b hI hs
    exact ⟨v1, hpush, hI1⟩
  · intro v p x hI hp
    exact ⟨I1_set v p x hI hp, I1_set v p x hI hp⟩

theorem C12_sizing_invariant_established_and_preserved_witness :
    ∃ v1, (bit_vector.mk [1023] 10).push_back true = some v1 ∧ I1 v1 :=
  C12_sizing_invariant_established_and_preserved.2.2.2.1 (bit_vector.mk [1023] 10) true rfl
    (by decide)

end bv

namespace bv

/-- C13 (the code at the failing input): `bit_vector(10)` followed by
`resize(0)` has no storage word and still reports `size() == 10`, so
`size() <= 64 * words` fails, and reading position 0, which is below
`size()`, trips the second assertion of `test`. -/
theorem C13_resize_breaks_length_bound :
    ∃ v, bit_vector.bit_vector_fill 10 false = some v ∧
      (v.resize 0).size = 10 ∧ (v.resize 0).m_bits.length = 0 ∧
      ¬ ((v.resize 0).size ≤ 64 * (v.resize 0).m_bits.length) ∧
      (v.resize 0).operator_index 0 = none :=
  ⟨{ m_bits := [0], m_size := 10 }, by decide, rfl, rfl, by decide, by decide⟩

/-- C15: under I1, for every position `pos < length` the word index
`pos / 64` is below the word count, so both assertions of `test` hold and the
word indexing of `test` and of `set` is in bounds: both return. -/
theorem C15_indexed_access_in_bounds (v : bit_vector) (pos : Nat) (hI : I1 v)
    (hp : pos < v.m_size) :
    pos / 64 < v.m_bits.length ∧
    v.test pos = some (storage_bit v (pos / 64) (pos % 64)) ∧
    v.operator_index pos ≠ none ∧
    ∀ b, ∃ v1, v.set pos b = some v1 :=
  ⟨I1_block_lt v hI pos hp,
    test_eq_storage_bit v pos hp (I1_block_lt v hI pos hp),
    by
      unfold bit_vector.operator_index
      rw [test_eq_storage_bit v pos hp (I1_block_lt v hI pos hp)]
      exact Option.some_ne_none _,
    fun b => set_eq_some v pos b (I1_block_lt v hI pos hp)⟩

theorem C15_indexed_access_in_bounds_witness :
    I1 { m_bits := [1023], m_size := 10 } ∧ 9 < (bit_vector.mk [1023] 10).m_size ∧
    (9 / 64 < (bit_vector.mk [1023] 10).m_bits.length ∧
    (bit_vector.mk [1023] 10).test 9
      = some (storage_bit (bit_vector.mk [1023] 10) (9 / 64) (9 % 64)) ∧
    (bit_vector.mk [1023] 10).operator_index 9 ≠ none ∧
    ∀ b, ∃ v1, (bit_vector.mk [1023] 10).set 9 b = some v1) :=
  ⟨rfl, by decide, C15_indexed_access_in_bounds (bit_vector.mk [1023] 10) 9 rfl (by decide)⟩

/-- C16: `push_back` only extends. On a container that satisfies I1 with
`length < 2^64 - 64`, `push_back(b)` returns a container whose length is the
old length plus one; when the old length is a multiple of 64 one word is
appended, the old words are kept, and the new word is zero apart from bit 0,
which is `b`; otherwise the word count is unchanged; and `operator[](i)` is
unchanged for every `i` below the old length. -/
theorem C16_push_back_only_extends (v : bit_vector) (b : Bool) (hI : I1 v)
    (hs : v.m_size < 2^64 - 64) :
    ∃ v1, v.push_back b = some v1 ∧ v1.size = v.size + 1 ∧
      (v.m_size % 64 = 0 → v1.m_bits.length = v.m_bits.length + 1 ∧
        (∀ j, j < v.m_bits.length → v1.m_bits[j]? = v.m_bits[j]?) ∧
        ∀ i, storage_bit v1 v.m_bits.length i = (decide (i = 0) && b)) ∧
      (v.m_size % 64 ≠ 0 → v1.m_bits.length = v.m_bits.length) ∧
      ∀ i, i < v.size → v1.operator_index i = v.operator_index i := by
  obtain ⟨v1, hpush, hsz1, hlen1, hbits1⟩ := push_back_spec v b hI
  have hI' : v.m_bits.length = (v.m_size + 63) / 64 := hI
  rw [Nat.mod_eq_of_lt (by omega)] at hsz1
  refine ⟨v1, hpush, hsz1, ?_, ?_, ?_⟩
  · intro hp
    have hlen : v.m_bits.length = v.m_size / 64 := by omega
    refine ⟨by omega, ?_, ?_⟩
    · intro j hj
      apply getElem?_eq_of_storage_bit v v1 j hj (by omega)
      intro i
      rw [hbits1, if_neg (by omega)]
    · intro i
      rw [hbits1, hlen, storage_bit_of_length_le v _ i (by omega), hp]
      by_cases hi : i = 0
      · simp [hi]
      · simp [hi]
  · intro hp
    omega
  · intro i hi
    have hi1 : i < v.m_size := hi
    have hib := I1_block_lt v hI i hi1
    unfold bit_vector.operator_index
    rw [test_eq_storage_bit v1 i (by omega) (by omega), test_eq_storage_bit v i hi1 hib,
      hbits1, if_neg]
    intro hc
    have h1 := Nat.div_add_mod i 64
    have h2 := Nat.div_add_mod v.m_size 64
    omega

theorem C16_push_back_only_extends_witness :
    I1 { m_bits := [1023], m_size := 64 } ∧ (bit_vector.mk [1023] 64).m_size < 2^64 - 64 ∧
    ∃ v1, (bit_vector.mk [1023] 64).push_back true = some v1 ∧
      v1.size = (bit_vector.mk [1023] 64).size + 1 ∧
      ((bit_vector.mk [1023] 64).m_size % 64 = 0 →
        v1.m_bits.length = (bit_vector.mk [1023] 64).m_bits.length + 1 ∧
        (∀ j, j < (bit_vector.mk [1023] 64).m_bits.length →
          v1.m_bits[j]? = (bit_vector.mk [1023] 64).m_bits[j]?) ∧
        ∀ i, storage_bit v1 (bit_vector.mk [1023] 64).m_bits.length i = (decide (i = 0) && true)) ∧
      ((bit_vector.mk [1023] 64).m_size % 64 ≠ 0 →
        v1.m_bits.length = (bit_vector.mk [1023] 64).m_bits.length) ∧
      ∀ i, i < (bit_vector.mk [1023] 64).size →
        v1.operator_index i = (bit_vector.mk [1023] 64).operator_index i :=
  ⟨rfl, by decide, C16_push_back_only_extends (bit_vector.mk [1023] 64) true rfl (by decide)⟩

end bv

namespace bv

/-! ## The clean-tail invariant -/

theorem words_for_wraps (n : Nat) (h1 : 2^64 - 64 < n) (h2 : n < 2^64) :
    detail.words_for n = 0 := by
  unfold detail.words_for detail.ceil_div
  norm_num at h1 h2 ⊢
  omega

theorem bit_vector_fill_eq_none (count : Nat) (value : Bool) (h1 : 2^64 - 64 < count)
    (h2 : count < 2^64) : bit_vector.bit_vector_fill count value = none := by
  unfold bit_vector.bit_vector_fill
  rw [words_for_wraps count h1 h2]
  have hc : (count != 0) = true := by
    rw [bne_iff_ne]
    omega
  simp only [hc, if_true, List.replicate_zero, List.getLast?_nil]

theorem clean_tail_default : clean_tail bit_vector.bit_vector_default := by
  refine ⟨rfl, ?_⟩
  intro h
  exact absurd rfl h

theorem clean_tail_fill (count : Nat) (value : Bool) (v : bit_vector) (hc : count < 2^64)
    (hv : bit_vector.bit_vector_fill count value = some v) : clean_tail v := by
  by_cases h : count ≤ 2^64 - 64
  · obtain ⟨v1, hv1, hsz, hlen, hbits⟩ := bit_vector_fill_spec count value h
    have he : v1 = v := Option.some.inj (hv1.symm.trans hv)
    subst he
    refine ⟨hlen.trans (by rw [hsz]), ?_⟩
    intro hp i hi _
    rw [hbits, hlen]
    have : ¬ 64 * ((count + 63) / 64 - 1) + i < count := by omega
    simp [this]
  · rw [bit_vector_fill_eq_none count value (by omega) hc] at hv
    exact absurd hv (by simp)

theorem clean_tail_push_back (v : bit_vector) (b : Bool) (h : clean_tail v)
    (hs : v.m_size + 1 < 2^64) :
    ∃ v1, v.push_back b = some v1 ∧ clean_tail v1 ∧ v1.test v.m_size = some b := by
  obtain ⟨hI, htail⟩ := h
  have hI' : v.m_bits.length = (v.m_size + 63) / 64 := hI
  obtain ⟨v1, hpush, hsz1, hlen1, hbits1⟩ := push_back_spec v b hI
  rw [Nat.mod_eq_of_lt hs] at hsz1
  have hold : ∀ i, v.m_size % 64 ≤ i → i < 64 → storage_bit v (v.m_size / 64) i = false := by
    intro i hi hi64
    by_cases hp : v.m_size % 64 = 0
    · exact storage_bit_of_length_le v _ i (by omega)
    · have hj : v.m_bits.length - 1 = v.m_size / 64 := by omega
      rw [← hj]
      exact htail hp i hi hi64
  have hI1 : I1 v1 := by
    unfold I1
    rw [hlen1, hsz1]
    omega
  refine ⟨v1, hpush, ⟨hI1, ?_⟩, ?_⟩
  · intro hp i hi hi64
    have hj : v1.m_bits.length - 1 = v.m_size / 64 := by omega
    rw [hj, hbits1, if_neg (by omega)]
    exact hold i (by omega) hi64
  · rw [test_eq_storage_bit v1 v.m_size (by omega) (by omega), hbits1, if_pos ⟨rfl, rfl⟩,
      hold _ (Nat.le_refl _) (Nat.mod_lt _ (by decide))]
    simp

theorem clean_tail_set (v : bit_vector) (p : Nat) (x : Bool) (h : clean_tail v)
    (hp : p < v.m_size) : ∃ v1, v.set p x = some v1 ∧ clean_tail v1 := by
  obtain ⟨hI, htail⟩ := h
  have hI' : v.m_bits.length = (v.m_size + 63) / 64 := hI
  obtain ⟨v1, hset⟩ := set_eq_some v p x (I1_block_lt v hI p hp)
  obtain ⟨hsz, hlen, _, _⟩ := set_spec v p x v1 hset
  refine ⟨v1, hset, ?_, ?_⟩
  · unfold I1
    rw [hlen, hsz]
    exact hI
  · intro hm i hi hi64
    rw [hsz] at hm hi
    rw [hlen, set_storage_bit v p x v1 hset _ _ hi64, if_neg]
    · exact htail hm i hi hi64
    · intro hc
      have h1 := Nat.div_add_mod p 64
      have h2 := Nat.div_add_mod v.m_size 64
      omega

theorem clean_tail_clear (v : bit_vector) : clean_tail v.clear := by
  refine ⟨I1_clear v, ?_⟩
  intro h
  exact absurd rfl h

theorem clean_tail_of_built (v : bit_vector) (h : built v) : clean_tail v := by
  induction h with
  | default => exact clean_tail_default
  | fill count value v hc hv => exact clean_tail_fill count value v hc hv
  | push_back v b v1 _ hs hpush ih =>
    obtain ⟨v2, hpush2, hclean, _⟩ := clean_tail_push_back v b ih hs
    have he : v2 = v1 := Option.some.inj (hpush2.symm.trans hpush)
    rw [← he]
    exact hclean
  | set v pos b v1 _ hp hset ih =>
    obtain ⟨v2, hset2, hclean⟩ := clean_tail_set v pos b ih hp
    have he : v2 = v1 := Option.some.inj (hset2.symm.trans hset)
    rw [← he]
    exact hclean
  | clear v _ _ => exact clean_tail_clear v
  | swap_this v other _ _ _ ih2 => exact ih2
  | swap_other v other _ _ ih1 _ => exact ih1
  | copy other _ ih => exact ih
  | assign_copy v other _ _ _ ih2 => exact ih2

/-- C17: the clean-tail invariant (I1 holds and, when `length % 64 != 0`,
every bit of the last storage word at an in-word index from `length % 64` on
is zero) holds for the default-constructed container and for every container
returned by `bit_vector(count, value)`, and is preserved by `push_back`, by
every in-range indexed write (`set` and proxy assignment), by `clear`, by
`swap` and by copying. So every container built without the bulk `set()` and
without `resize` has all-zero tail bits, and on a container with the invariant
`push_back(b)` followed by reading the new last position returns `b`. -/
theorem C17_clean_tail_invariant :
    clean_tail bit_vector.bit_vector_default ∧
    (∀ (count : Nat) (value : Bool) (v : bit_vector), count < 2^64 →
      bit_vector.bit_vector_fill count value = some v → clean_tail v) ∧
    (∀ (v : bit_vector) (b : Bool), clean_tail v → v.m_size + 1 < 2^64 →
      ∃ v1, v.push_back b = some v1 ∧ clean_tail v1 ∧ v1.operator_index v.size = some b) ∧
    (∀ (v : bit_vector) (p : Nat) (x : Bool), clean_tail v → p < v.size →
      (∃ v1, v.set p x = some v1 ∧ clean_tail v1) ∧
      ∃ v1, reference.assign v (v.operator_index_ref p) x = some v1 ∧ clean_tail v1) ∧
    (∀ v : bit_vector, clean_tail v.clear) ∧
    (∀ a b : bit_vector, clean_tail a → clean_tail b →
      clean_tail (a.swap b).1 ∧ clean_tail (a.swap b).2) ∧
    (∀ other : bit_vector, clean_tail other →
      clean_tail (bit_vector.bit_vector_copy other)) ∧
    (∀ v other : bit_vector, clean_tail other → clean_tail (v.assign_copy other)) ∧
    (∀ v : bit_vector, built v → clean_tail v) ∧
    (∀ (v : bit_vector) (b : Bool), built v → v.m_size + 1 < 2^64 →
      ∃ v1, v.push_back b = some v1 ∧ v1.operator_index v.size = some b) :=
  ⟨clean_tail_default, clean_tail_fill, clean_tail_push_back,
    fun v p x h hp => ⟨clean_tail_set v p x h hp, clean_tail_set v p x h hp⟩,
    clean_tail_clear, fun _ _ ha hb => ⟨hb, ha⟩, fun _ h => h, fun _ _ h => h,
    clean_tail_of_built,
    fun v b hb hs =>
      (clean_tail_push_back v b (clean_tail_of_built v hb) hs).imp fun _ h => ⟨h.1, h.2.2⟩⟩

theorem C17_clean_tail_invariant_witness :
    ∃ v1, (bit_vector.mk [1023] 10).push_back false = some v1 ∧ clean_tail v1 ∧
      v1.operator_index (bit_vector.mk [1023] 10).size = some false :=
  C17_clean_tail_invariant.2.2.1 (bit_vector.mk [1023] 10) false
    ⟨rfl, fun _ i h1 h2 => by
      have : ∀ k, k < 64 → 10 ≤ k → Nat.testBit 1023 k = false := by decide
      exact this i h2 h1⟩
    (by decide)

end bv

namespace bv

/-! ## The two construction paths, moves, and the word count -/

theorem getD_replicate (n q : Nat) (value : Bool) :
    (List.replicate n value).getD q false = (value && decide (q < n)) := by
  rw [List.getD_eq_getElem?_getD, List.getElem?_replicate]
  by_cases h : q < n
  · simp [h]
  · simp [h]

/-- C18: for every `n ≤ 2^64 - 64` and every `value`, calling
`push_back(value)` `n` times on a default-constructed container returns a
container that compares equal under `operator==` to `bit_vector(n, value)`:
the same length and the same storage words, tail bits included. -/
theorem C18_push_back_path_equals_fill (n : Nat) (value : Bool) (h : n ≤ 2^64 - 64) :
    ∃ v vf, push_all bit_vector.bit_vector_default (List.replicate n value) = some v ∧
      bit_vector.bit_vector_fill n value = some vf ∧
      v.operator_eq vf = true ∧ v.size = vf.size ∧ v.m_bits = vf.m_bits := by
  have hn : n < 2^64 := by
    have : (64 : Nat) ≤ 2^64 := by decide
    omega
  obtain ⟨vf, hvf, hszf, hlenf, hbitsf⟩ := bit_vector_fill_spec n value h
  obtain ⟨v, hv, hh⟩ := holds_push_all (List.replicate n value)
    bit_vector.bit_vector_default [] holds_default
    (by rw [List.length_replicate, List.length_nil, Nat.zero_add]; exact hn)
  rw [List.nil_append] at hh
  obtain ⟨hsz, hI, hbits⟩ := hh
  rw [List.length_replicate] at hsz
  have hI' : v.m_bits.length = (v.m_size + 63) / 64 := hI
  have heq : v = vf := by
    apply bit_vector_ext v vf (by omega) (by omega)
    intro j i
    rw [hbits, hbitsf, getD_replicate]
    cases value <;> simp [Bool.and_comm]
  refine ⟨v, vf, hv, hvf, ?_, by rw [heq], by rw [heq]⟩
  rw [heq]
  exact operator_eq_self vf

theorem C18_push_back_path_equals_fill_witness :
    70 ≤ 2^64 - 64 ∧
    ∃ v vf, push_all bit_vector.bit_vector_default (List.replicate 70 true) = some v ∧
      bit_vector.bit_vector_fill 70 true = some vf ∧
      v.operator_eq vf = true ∧ v.size = vf.size ∧ v.m_bits = vf.m_bits :=
  ⟨by decide, C18_push_back_path_equals_fill 70 true (by decide)⟩

/-- C19 (counterexample): moving from `bit_vector(10, true)`, by move
construction or by move assignment, leaves the source with an empty word buffer
and `m_size` still 10: the source reports `size() == 10` and
`empty() == false`, and I1 fails for it. -/
theorem C19_moved_from_source_not_empty :
    ∃ a, bit_vector.bit_vector_fill 10 true = some a ∧
      (bit_vector.bit_vector_move a).2.size = 10 ∧
      (bit_vector.bit_vector_move a).2.empty = false ∧
      ¬ I1 (bit_vector.bit_vector_move a).2 ∧
      (bit_vector.bit_vector_default.assign_move a).2.size = 10 ∧
      (bit_vector.bit_vector_default.assign_move a).2.empty = false ∧
      ¬ I1 (bit_vector.bit_vector_default.assign_move a).2 :=
  ⟨{ m_bits := [1023], m_size := 10 }, by decide, rfl, rfl,
    by unfold I1; decide, rfl, rfl, by unfold I1; decide⟩

/-- C19 (amended): move construction and move assignment give the destination
the length and the words of the source and leave the moved-from source with an
empty word buffer and its length unchanged; the source afterwards satisfies I1,
reports `size() == 0` and `empty() == true`, exactly when it was empty before
the move. -/
theorem C19_moved_from_source_keeps_length (a d : bit_vector) :
    (bit_vector.bit_vector_move a).1 = a ∧ (d.assign_move a).1 = a ∧
    (bit_vector.bit_vector_move a).2.m_bits = [] ∧ (d.assign_move a).2.m_bits = [] ∧
    (bit_vector.bit_vector_move a).2.size = a.size ∧ (d.assign_move a).2.size = a.size ∧
    (I1 (bit_vector.bit_vector_move a).2 ↔ a.size = 0) ∧
    (I1 (d.assign_move a).2 ↔ a.size = 0) ∧
    ((bit_vector.bit_vector_move a).2.empty = true ↔ a.size = 0) ∧
    ((d.assign_move a).2.empty = true ↔ a.size = 0) := by
  have hI : I1 { m_bits := [], m_size := a.m_size } ↔ a.size = 0 := by
    unfold I1 bit_vector.size
    simp only [List.length_nil]
    omega
  have he : bit_vector.empty { m_bits := [], m_size := a.m_size } = true ↔ a.size = 0 := by
    unfold bit_vector.empty bit_vector.size
    exact beq_iff_eq
  exact ⟨rfl, rfl, rfl, rfl, rfl, rfl, hI, hI, he, he⟩

/-- C20 (the code at the failing input): for `n = 2^64 - 1` the sum
`n + 64 - 1` wraps to 62, so `words_for` returns 0 while the ceiling of
`n / 64` is `2^58`; no smaller word count covers `n` bits. The constructor
`bit_vector(2^64 - 1, value)` then resizes to no word and calls `back()` on the
empty buffer. Below the wrap, for `n ≤ 2^64 - 64`, `words_for` is the
ceiling. -/
theorem C20_words_for_wraps_near_max :
    detail.words_for 18446744073709551615 = 0 ∧
    (18446744073709551615 + 63) / 64 = 2^58 ∧
    ¬ (18446744073709551615 ≤ 64 * detail.words_for 18446744073709551615) ∧
    (∀ value, bit_vector.bit_vector_fill 18446744073709551615 value = none) ∧
    (∀ n, n ≤ 2^64 - 64 → detail.words_for n = (n + 63) / 64) :=
  ⟨by decide, by decide, by decide,
    fun value => bit_vector_fill_eq_none 18446744073709551615 value (by decide) (by decide),
    words_for_eq⟩

end bv

namespace bv

/-! ## Copies and moves in memory -/

end bv

namespace bv

end bv
